import Mathlib

/-!
Verification development for the point-table logic layer of the
center-of-gravity / TOPSIS location app (`logic.py`).

Modelling conventions (shallow embedding):
* pandas `DataFrame`s are `RawTable`s: a header of column names plus a list
  of rows; a cell is `Option ℚ`, recording the value the cell coerces to
  under `pd.to_numeric(errors="coerce")` (`none` = missing / non-numeric,
  the NaN the coercion produces).  IEEE doubles are modelled as exact
  rationals.
* column names are `List Char` (Python `str.strip().lower()` becomes
  structural trimming / per-character lowering, which the kernel can
  evaluate).
* a pandas operation that raises (`ValueError` from a length-mismatched
  column assignment or from relabelling a selection of the wrong width)
  is modelled by returning `none`; `ensure_points_dataframe` therefore has
  type `Option RawTable → Option RawTable` (the argument `none` models the
  Python argument `None`).
* `math.sqrt` appears in the reconciler only as a sort key; the model keeps
  the squared Euclidean distance and sorts by it, which yields the same
  order and the same ties because `Real.sqrt` is strictly monotone on
  nonnegative arguments (`sqrt_le_sqrt_iff_rat` below).
-/

/-- A table cell after numeric coercion: `some q` if the original value
coerces to the rational `q`, `none` if it is missing or non-numeric. -/
abbrev Cell := Option ℚ

/-- A column name, as a character list. -/
abbrev ColName := List Char

/-- A pandas `DataFrame`: column names plus row-major cells. -/
structure RawTable where
  header : List ColName
  rows : List (List Cell)
deriving DecidableEq, Repr

/-- Python `str.strip().lower()` on a column name. -/
def normName (n : ColName) : ColName :=
  ((n.dropWhile Char.isWhitespace).reverse.dropWhile Char.isWhitespace).reverse.map Char.toLower

/-- Model of `logic.normalize_column_names`: lower-case and trim all column headers. -/
def normalize_column_names (t : RawTable) : RawTable :=
  ⟨t.header.map normName, t.rows⟩

/-- Model of `logic.choose_existing_column`: first candidate name present in the header. -/
def choose_existing_column (t : RawTable) (candidate_names : List ColName) : Option ColName :=
  candidate_names.find? (fun n => t.header.contains n)

/-- The canonical four-column header `longitude, latitude, transport_rate, mass`. -/
def canonicalHeader : List ColName :=
  ["longitude".toList, "latitude".toList, "transport_rate".toList, "mass".toList]

/-- The empty canonical table `pd.DataFrame(columns=[...])`. -/
def emptyPointsTable : RawTable := ⟨canonicalHeader, []⟩

/-- Assignment `df[name] = 1.0`: append a scalar-filled column (pandas broadcasts the
scalar over all rows; with zero rows the new column is empty). -/
def addScalarColumn (t : RawTable) (name : ColName) (v : ℚ) : RawTable :=
  ⟨t.header ++ [name], t.rows.map (fun r => r ++ [some v])⟩

/-- Assignment `df[name] = []`: pandas accepts the empty assignment only on a table with
zero rows, otherwise it raises `ValueError` (modelled as `none`). -/
def addEmptyColumn (t : RawTable) (name : ColName) : Option RawTable :=
  if t.rows.isEmpty then some ⟨t.header ++ [name], t.rows⟩ else none

/-- Indices selected by `df[[n₁, n₂, n₃, n₄]]`: for each requested label, all
columns carrying that label, in column order. -/
def selectIdxs (header : List ColName) (names : List ColName) : List Nat :=
  names.flatMap (fun n => (List.range header.length).filter (fun i => header.getD i [] = n))

/-- Project a row onto the selected column indices. -/
def projectRow (idxs : List Nat) (r : List Cell) : List Cell :=
  idxs.map (fun i => r.getD i none)

/-- The `dropna(subset=["longitude","latitude"])` row predicate: both
coordinate cells coerced successfully. -/
def keepRow (r : List Cell) : Bool :=
  (r.getD 0 none).isSome && (r.getD 1 none).isSome

/-- The `fillna(1.0)` step on `transport_rate` and `mass` of a selected row. -/
def fillRow (r : List Cell) : List Cell :=
  [r.getD 0 none, r.getD 1 none, some ((r.getD 2 none).getD 1), some ((r.getD 3 none).getD 1)]

/-- Column resolution of `logic.ensure_points_dataframe` (lines 78-108):
header normalization, alias lookup, positional fallback for the coordinate
columns, synthesized `transport_rate`/`mass` columns, synthesized empty
coordinate columns, and the four-label selection.  Returns the grown table
together with the selected column indices, or `none` where pandas raises. -/
def resolveColumns (t0 : RawTable) : Option (RawTable × List Nat) :=
  let df := normalize_column_names t0
  let lonc0 := choose_existing_column df ["longitude".toList, "lon".toList, "x".toList]
  let latc0 := choose_existing_column df ["latitude".toList, "lat".toList, "y".toList]
  let trc0 := choose_existing_column df
    ["transport_rate".toList, "transport".toList, "rate".toList,
     "stawka_transportowa".toList, "stawka".toList, "st".toList]
  let massc0 := choose_existing_column df ["mass".toList, "masa".toList, "m".toList]
  let lonc1 := if (lonc0.isNone || latc0.isNone) && decide (2 ≤ df.header.length) then
      some (lonc0.getD (df.header.getD 0 [])) else lonc0
  let latc1 := if (lonc0.isNone || latc0.isNone) && decide (2 ≤ df.header.length) then
      some (latc0.getD (df.header.getD 1 [])) else latc0
  let df1 := if trc0.isNone then addScalarColumn df "transport_rate".toList 1 else df
  let trc := trc0.getD "transport_rate".toList
  let df2 := if massc0.isNone then addScalarColumn df1 "mass".toList 1 else df1
  let massc := massc0.getD "mass".toList
  (if lonc1.isNone then addEmptyColumn df2 "longitude".toList else some df2).bind fun df3 =>
  (if latc1.isNone then addEmptyColumn df3 "latitude".toList else some df3).bind fun df4 =>
  let lonc := lonc1.getD "longitude".toList
  let latc := latc1.getD "latitude".toList
  let idxs := selectIdxs df4.header [lonc, latc, trc, massc]
  if idxs.length = 4 then some (df4, idxs) else none

/-- Model of `logic.ensure_points_dataframe`: coerce an arbitrary table (or `None`)
into the canonical four-column point schema; `none` models the pandas
exceptions described at `addEmptyColumn` / the final relabelling. -/
def ensure_points_dataframe (input : Option RawTable) : Option RawTable :=
  match input with
  | none => some emptyPointsTable
  | some t0 =>
    (resolveColumns t0).map fun p =>
      ⟨canonicalHeader, ((p.1.rows.map (projectRow p.2)).filter keepRow).map fillRow⟩

/-- Boolean canonical-form check: the canonical header, and every row is
exactly four successfully-coerced cells. -/
def isCanonicalRow (r : List Cell) : Bool :=
  match r with
  | [some _, some _, some _, some _] => true
  | _ => false

/-- A table is canonical when it has the canonical header and only
fully-numeric four-cell rows. -/
def RawTable.isCanonical (t : RawTable) : Bool :=
  t.header = canonicalHeader && t.rows.all isCanonicalRow

/-- Model of `logic.append_point`: normalize, then concatenate one fully-specified row. -/
def append_point (pdf : Option RawTable) (longitude latitude transport_rate mass : ℚ) :
    Option RawTable :=
  (ensure_points_dataframe pdf).map fun df =>
    ⟨df.header, df.rows ++ [[some longitude, some latitude, some transport_rate, some mass]]⟩

/-- Outcome of the upload parse in `logic.read_points_from_uploaded_file`:
no file, a parse exception, or a parsed table. -/
inductive UploadOutcome where
  | noFile : UploadOutcome
  | parseFailure : UploadOutcome
  | parsed : RawTable → UploadOutcome

/-- Model of `logic.read_points_from_uploaded_file`: empty canonical table when there
is no file or the parse raises, otherwise the normalized parsed table. -/
def read_points_from_uploaded_file : UploadOutcome → Option RawTable
  | .noFile => some emptyPointsTable
  | .parseFailure => some emptyPointsTable
  | .parsed t => ensure_points_dataframe (some t)

/-- A point of the centroid calculator: `(x, y, transport_rate, mass)`. -/
abbrev Pt4 := ℚ × ℚ × ℚ × ℚ

namespace CentroidCalculator

/-- The degeneracy threshold `1e-12` of `CentroidCalculator.centroid`. -/
def eps : ℚ := 1 / 1000000000000

/-- One iteration of the accumulation loop of `centroid`:
`w = transport_rate * mass; total += w; wx += w*x; wy += w*y`. -/
def sumsStep (acc : ℚ × ℚ × ℚ) (p : Pt4) : ℚ × ℚ × ℚ :=
  let w := p.2.2.1 * p.2.2.2
  (acc.1 + w, acc.2.1 + w * p.1, acc.2.2 + w * p.2.1)

/-- The accumulated `(total_weight, weighted_x_sum, weighted_y_sum)`. -/
def sums (pts : List Pt4) : ℚ × ℚ × ℚ :=
  pts.foldl sumsStep (0, 0, 0)

/-- The total weight `Σ transport_rate_i * mass_i` as a closed-form sum. -/
def totalWeight (pts : List Pt4) : ℚ :=
  (pts.map (fun p => p.2.2.1 * p.2.2.2)).sum

/-- Model of `CentroidCalculator.centroid` (logic.py lines 30-50). -/
def centroid (pts : List Pt4) : ℚ × ℚ :=
  if pts = [] then (0, 0)
  else
    let s := sums pts
    if |s.1| < eps then
      ((pts.map (fun p => p.1)).sum / pts.length, (pts.map (fun p => p.2.1)).sum / pts.length)
    else (s.2.1 / s.1, s.2.2 / s.1)

lemma sums_aux (pts : List Pt4) : ∀ a b c : ℚ,
    pts.foldl sumsStep (a, b, c) =
      (a + (pts.map (fun p => p.2.2.1 * p.2.2.2)).sum,
       b + (pts.map (fun p => p.2.2.1 * p.2.2.2 * p.1)).sum,
       c + (pts.map (fun p => p.2.2.1 * p.2.2.2 * p.2.1)).sum) := by
  induction pts with
  | nil => intro a b c; simp
  | cons p t ih =>
    intro a b c
    simp only [List.foldl_cons, List.map_cons, List.sum_cons, sumsStep, ih, Prod.mk.injEq]
    exact ⟨by ring, by ring, by ring⟩

/-- The loop accumulators equal the corresponding closed-form sums. -/
lemma sums_eq (pts : List Pt4) :
    sums pts =
      (totalWeight pts,
       (pts.map (fun p => p.2.2.1 * p.2.2.2 * p.1)).sum,
       (pts.map (fun p => p.2.2.1 * p.2.2.2 * p.2.1)).sum) := by
  rw [sums, sums_aux]
  simp [totalWeight]

end CentroidCalculator

/-- Result record of the centroid computation as consumed by the UI layer. -/
structure CenterOfGravityDetails where
  centroid_longitude : ℚ
  centroid_latitude : ℚ
  total_weight : ℚ
  used_fallback_average : Bool
deriving DecidableEq, Repr

/-- Modelled from the spec: `compute_center_of_gravity_details` is imported
by `ui.py` and `app.py` but its definition is not among the provided source
files.  Per the spec (§4.2 and §7) it performs the §4.2 centroid computation
and reports the degenerate-weight fallback to the caller through a
`used_fallback_average` flag, which the UI renders as a warning, not an
error. -/
def compute_center_of_gravity_details (pts : List Pt4) : CenterOfGravityDetails :=
  { centroid_longitude := (CentroidCalculator.centroid pts).1
    centroid_latitude := (CentroidCalculator.centroid pts).2
    total_weight := CentroidCalculator.totalWeight pts
    used_fallback_average :=
      !pts.isEmpty && decide (|CentroidCalculator.totalWeight pts| < CentroidCalculator.eps) }

/-- A candidate pair of the reconciler: `(squared distance, previous-point
index, marker index)`.  The source stores `math.sqrt` of the first component
and uses it only as a sort key; sorting by the square gives the same order
and the same ties since the square root is strictly monotone
(`sqrt_le_sqrt_iff_rat` below). -/
abbrev Pair := ℚ × ℕ × ℕ

/-- Squared planar Euclidean distance. -/
def distSq (a b : ℚ × ℚ) : ℚ := (a.1 - b.1) ^ 2 + (a.2 - b.2) ^ 2

/-- Monotonicity fact justifying the squared-distance sort key. -/
lemma sqrt_le_sqrt_iff_rat (a b : ℚ) (hb : 0 ≤ b) :
    Real.sqrt a ≤ Real.sqrt b ↔ a ≤ b := by
  constructor
  · intro h
    by_contra hab
    have hba : (b : ℝ) < a := by exact_mod_cast not_le.mp hab
    have := Real.sqrt_lt_sqrt (by exact_mod_cast hb) hba
    exact absurd h (not_le.mpr this)
  · intro h
    exact Real.sqrt_le_sqrt (by exact_mod_cast h)

/-- The all-pairs list of `synchronize_points_dataframe_with_marker_positions`
(lines 281-285): previous-point index major, marker index minor. -/
def allPairs (epos mpos : List (ℚ × ℚ)) : List Pair :=
  (List.range epos.length).flatMap fun ei =>
    (List.range mpos.length).map fun mi =>
      (distSq (epos.getD ei (0, 0)) (mpos.getD mi (0, 0)), ei, mi)

/-- The sort key of line 287: distance only (Python `list.sort` is stable). -/
def distLe (p q : Pair) : Bool := decide (p.1 ≤ q.1)

/-- Strict order on the original index pair: previous-point index first,
then marker index. -/
def idxLt (p q : Pair) : Bool :=
  decide (p.2.1 < q.2.1) || (decide (p.2.1 = q.2.1) && decide (p.2.2 < q.2.2))

/-- Strict lexicographic key: distance, then previous-point index, then
marker index. -/
def lexLt (p q : Pair) : Bool :=
  decide (p.1 < q.1) || (decide (p.1 = q.1) && idxLt p q)

/-- The lexicographic pair key as a linearly ordered value. -/
def pairKey (p : Pair) : ℚ ×ₗ (ℕ ×ₗ ℕ) := toLex (p.1, toLex (p.2.1, p.2.2))

/-- The greedy loop of lines 289-300: walk the sorted pair list, accept any
pair whose two sides are still unmatched, stop early once one side is
exhausted. -/
def greedyScan (nE nM : ℕ) : List Pair → Finset ℕ → Finset ℕ → List (ℕ × ℕ) →
    Finset ℕ × Finset ℕ × List (ℕ × ℕ)
  | [], mE, mM, mp => (mE, mM, mp)
  | p :: rest, mE, mM, mp =>
    if p.2.1 ∈ mE ∨ p.2.2 ∈ mM then greedyScan nE nM rest mE mM mp
    else
      let mE2 := insert p.2.1 mE
      let mM2 := insert p.2.2 mM
      let mp2 := mp ++ [(p.2.1, p.2.2)]
      if mE2.card = nE ∨ mM2.card = nM then (mE2, mM2, mp2)
      else greedyScan nE nM rest mE2 mM2 mp2

/-- Read a coerced cell as the float the source extracts (`float(r[col])`). -/
def cellVal (r : List Cell) (i : ℕ) : ℚ := (r.getD i none).getD 0

/-- Model of `logic.synchronize_points_dataframe_with_marker_positions`
(lines 246-330): clear on empty marker list; all-defaults rows when there
are no previous points; otherwise greedy nearest-neighbor matching, matched
previous rows carried onto marker coordinates, unmatched markers appended
with the supplied defaults, unmatched previous rows dropped. -/
def synchronize_points_dataframe_with_marker_positions
    (pdf : Option RawTable) (marker_positions : List (ℚ × ℚ))
    (default_transport_rate default_mass : ℚ) : Option RawTable :=
  (ensure_points_dataframe pdf).bind fun df =>
  if marker_positions.length = 0 then some emptyPointsTable
  else if df.rows.length = 0 then
    ensure_points_dataframe (some ⟨canonicalHeader,
      marker_positions.map fun q =>
        [some q.1, some q.2, some default_transport_rate, some default_mass]⟩)
  else
    let existing_positions := df.rows.map fun r => (cellVal r 0, cellVal r 1)
    let sorted := (allPairs existing_positions marker_positions).mergeSort distLe
    let res := greedyScan existing_positions.length marker_positions.length sorted ∅ ∅ []
    let matchedRows := (List.range df.rows.length).filterMap fun ei =>
      (res.2.2.lookup ei).map fun mi =>
        [some (marker_positions.getD mi (0, 0)).1, some (marker_positions.getD mi (0, 0)).2,
         some (cellVal (df.rows.getD ei []) 2), some (cellVal (df.rows.getD ei []) 3)]
    let newRows := (List.range marker_positions.length).filterMap fun mi =>
      if mi ∈ res.2.1 then none
      else some [some (marker_positions.getD mi (0, 0)).1,
                 some (marker_positions.getD mi (0, 0)).2,
                 some default_transport_rate, some default_mass]
    ensure_points_dataframe (some ⟨canonicalHeader, matchedRows ++ newRows⟩)

/-- A pair is available when neither of its sides has been consumed. -/
def validPair (mE mM : Finset ℕ) (p : Pair) : Bool :=
  decide (p.2.1 ∉ mE) && decide (p.2.2 ∉ mM)

/-- Fold step keeping the lexicographically least pair seen so far. -/
def pickMin (acc : Option Pair) (p : Pair) : Option Pair :=
  match acc with
  | none => some p
  | some q => if lexLt p q then some p else some q

/-- The globally closest still-available pair (ties by previous-point index,
then marker index). -/
def minValid (pool : List Pair) (mE mM : Finset ℕ) : Option Pair :=
  (pool.filter (validPair mE mM)).foldl pickMin none

/-- The greedy matching policy exactly as the spec words it (§4.4 step 4):
repeatedly accept the globally closest unmatched (previous point, marker)
pair, marking both consumed, until no available pair remains.  Stated
directly from the spec to be compared with the sorted-scan implementation. -/
def specGreedyMatch : ℕ → List Pair → Finset ℕ → Finset ℕ → List (ℕ × ℕ) →
    Finset ℕ × Finset ℕ × List (ℕ × ℕ)
  | 0, _, mE, mM, mp => (mE, mM, mp)
  | fuel + 1, pool, mE, mM, mp =>
    match minValid pool mE mM with
    | none => (mE, mM, mp)
    | some p => specGreedyMatch fuel pool (insert p.2.1 mE) (insert p.2.2 mM) (mp ++ [(p.2.1, p.2.2)])

/-- Criterion impact direction of the TOPSIS engine. -/
inductive Impact where
  | benefit : Impact
  | cost : Impact

namespace Topsis

/-!
Modelled from the spec: the TOPSIS engine (`compute_topsis_details` and its
helpers) is imported by `ui.py` and `app.py` but its definition is not among
the provided source files; the following definitions transcribe §4.3 of the
spec step by step.  `cells` are the selected criteria cells of each point
(`none` = missing/unparseable, treated as `0.0` by step 1), `ws` the supplied
per-criterion weights (default `1.0`), `imps` the impacts (default
`benefit`), and `k` the number of selected criteria.  The ranking step (sort
by descending score) is not needed by any claim and is omitted.
-/

/-- Step 1: decision-matrix entry, missing values as `0.0`. -/
def x (cells : List (List Cell)) (i j : ℕ) : ℚ :=
  ((cells.getD i []).getD j none).getD 0

/-- Column sum of squares `Σ_i x_ij²`. -/
def colSqSum (cells : List (List Cell)) (j : ℕ) : ℚ :=
  ((List.range cells.length).map fun i => (x cells i j) ^ 2).sum

/-- Step 2: vector normalization, guarded against an all-zero column. -/
noncomputable def rNorm (cells : List (List Cell)) (i j : ℕ) : ℝ :=
  if colSqSum cells j = 0 then 0 else (x cells i j : ℝ) / Real.sqrt (colSqSum cells j)

/-- Sum of the supplied weights over the selected criteria. -/
def wSum (ws : List ℚ) (k : ℕ) : ℚ :=
  ((List.range k).map fun j => ws.getD j 1).sum

/-- Step 3: weights normalized to sum 1, equal shares when all are zero. -/
def wNorm (ws : List ℚ) (k j : ℕ) : ℚ :=
  if wSum ws k = 0 then 1 / k else ws.getD j 1 / wSum ws k

/-- Step 4: weighted-normalized matrix entry. -/
noncomputable def v (cells : List (List Cell)) (ws : List ℚ) (k i j : ℕ) : ℝ :=
  rNorm cells i j * wNorm ws k j

/-- Maximum of a list of reals (first element as seed). -/
noncomputable def listMax (l : List ℝ) : ℝ := l.foldl max (l.headD 0)

/-- Minimum of a list of reals (first element as seed). -/
noncomputable def listMin (l : List ℝ) : ℝ := l.foldl min (l.headD 0)

/-- The weighted-normalized values of column `j`. -/
noncomputable def colVals (cells : List (List Cell)) (ws : List ℚ) (k j : ℕ) : List ℝ :=
  (List.range cells.length).map fun i => v cells ws k i j

/-- Step 5: ideal-best per column (max for benefit, min for cost). -/
noncomputable def idealBest (cells : List (List Cell)) (ws : List ℚ) (imps : List Impact)
    (k j : ℕ) : ℝ :=
  match imps.getD j Impact.benefit with
  | .benefit => listMax (colVals cells ws k j)
  | .cost => listMin (colVals cells ws k j)

/-- Step 5: ideal-worst per column (min for benefit, max for cost). -/
noncomputable def idealWorst (cells : List (List Cell)) (ws : List ℚ) (imps : List Impact)
    (k j : ℕ) : ℝ :=
  match imps.getD j Impact.benefit with
  | .benefit => listMin (colVals cells ws k j)
  | .cost => listMax (colVals cells ws k j)

/-- Step 6: Euclidean distance to the ideal-best vector. -/
noncomputable def dPlus (cells : List (List Cell)) (ws : List ℚ) (imps : List Impact)
    (k i : ℕ) : ℝ :=
  Real.sqrt (((List.range k).map fun j =>
    (v cells ws k i j - idealBest cells ws imps k j) ^ 2).sum)

/-- Step 6: Euclidean distance to the ideal-worst vector. -/
noncomputable def dMinus (cells : List (List Cell)) (ws : List ℚ) (imps : List Impact)
    (k i : ℕ) : ℝ :=
  Real.sqrt (((List.range k).map fun j =>
    (v cells ws k i j - idealWorst cells ws imps k j) ^ 2).sum)

/-- Step 7: closeness score, defined as `0.0` when both distances vanish. -/
noncomputable def topsisScore (cells : List (List Cell)) (ws : List ℚ) (imps : List Impact)
    (k i : ℕ) : ℝ :=
  if dPlus cells ws imps k i + dMinus cells ws imps k i = 0 then 0
  else dMinus cells ws imps k i / (dPlus cells ws imps k i + dMinus cells ws imps k i)

end Topsis

namespace CentroidCalculator

/-- In the non-degenerate branch the centroid is the weighted mean. -/
lemma centroid_eq_weighted (pts : List Pt4) (hne : pts ≠ [])
    (hw : eps ≤ |totalWeight pts|) :
    centroid pts =
      ((pts.map (fun p => p.2.2.1 * p.2.2.2 * p.1)).sum / totalWeight pts,
       (pts.map (fun p => p.2.2.1 * p.2.2.2 * p.2.1)).sum / totalWeight pts) := by
  unfold centroid
  rw [if_neg hne]
  simp only [sums_eq]
  rw [if_neg (not_lt.mpr hw)]

/-- In the degenerate branch the centroid is the unweighted coordinate mean. -/
lemma centroid_eq_fallback (pts : List Pt4) (hne : pts ≠ [])
    (hw : |totalWeight pts| < eps) :
    centroid pts =
      ((pts.map (fun p => p.1)).sum / pts.length,
       (pts.map (fun p => p.2.1)).sum / pts.length) := by
  unfold centroid
  rw [if_neg hne]
  simp only [sums_eq]
  rw [if_pos hw]

end CentroidCalculator

/-- C1: for every point set with at least one point whose total weight
`Σ transport_rate_i * mass_i` has absolute value at least `1e-12`, the
centroid is the weighted arithmetic mean with per-point weight
`w_i = transport_rate_i * mass_i` (the `(0,0,w=1),(10,0,w=1),(5,10,w=2)`
instance is checked in the witness). -/
theorem centroid_is_weighted_mean (pts : List Pt4) (hne : pts ≠ [])
    (hw : CentroidCalculator.eps ≤ |CentroidCalculator.totalWeight pts|) :
    CentroidCalculator.centroid pts =
      ((pts.map (fun p => p.2.2.1 * p.2.2.2 * p.1)).sum / CentroidCalculator.totalWeight pts,
       (pts.map (fun p => p.2.2.1 * p.2.2.2 * p.2.1)).sum / CentroidCalculator.totalWeight pts) :=
  CentroidCalculator.centroid_eq_weighted pts hne hw

/-- Witness for C1 at the spec's example points, with unit transport rates
and masses `1, 1, 2`: the centroid evaluates to `(5, 5)`. -/
theorem centroid_is_weighted_mean_witness :
    CentroidCalculator.eps ≤
      |CentroidCalculator.totalWeight [((0:ℚ), (0:ℚ), (1:ℚ), (1:ℚ)), (10, 0, 1, 1), (5, 10, 1, 2)]| ∧
    CentroidCalculator.centroid [((0:ℚ), (0:ℚ), (1:ℚ), (1:ℚ)), (10, 0, 1, 1), (5, 10, 1, 2)] =
      (5, 5) := by
  constructor
  · norm_num [CentroidCalculator.totalWeight, CentroidCalculator.eps]
  · rw [centroid_is_weighted_mean _ (by decide)
      (by norm_num [CentroidCalculator.totalWeight, CentroidCalculator.eps])]
    norm_num [CentroidCalculator.totalWeight]

/-- C4: with total weight below `1e-12` in absolute value the centroid falls
back to the unweighted arithmetic coordinate mean, and the centroid of zero
points is `(0, 0)`. -/
theorem centroid_degenerate_fallback :
    (∀ pts : List Pt4, pts ≠ [] →
        |CentroidCalculator.totalWeight pts| < CentroidCalculator.eps →
        CentroidCalculator.centroid pts =
          ((pts.map (fun p => p.1)).sum / pts.length,
           (pts.map (fun p => p.2.1)).sum / pts.length)) ∧
    CentroidCalculator.centroid [] = (0, 0) :=
  ⟨fun pts hne hw => CentroidCalculator.centroid_eq_fallback pts hne hw, rfl⟩

/-- Witness for C4 at a two-point zero-weight fleet: the result is the plain
coordinate mean `(2, 3)`. -/
theorem centroid_degenerate_fallback_witness :
    |CentroidCalculator.totalWeight [((1:ℚ), (2:ℚ), (0:ℚ), (5:ℚ)), (3, 4, 5, 0)]| <
      CentroidCalculator.eps ∧
    CentroidCalculator.centroid [((1:ℚ), (2:ℚ), (0:ℚ), (5:ℚ)), (3, 4, 5, 0)] = (2, 3) := by
  constructor
  · norm_num [CentroidCalculator.totalWeight, CentroidCalculator.eps]
  · rw [centroid_degenerate_fallback.1 _ (by decide)
      (by norm_num [CentroidCalculator.totalWeight, CentroidCalculator.eps])]
    norm_num

/-- C9: whenever the centroid computation takes the degenerate fallback, the
details record returned to the caller carries `used_fallback_average = true`
together with the (well-defined, non-error) fallback centroid. -/
theorem details_reports_fallback_flag (pts : List Pt4) (hne : pts ≠ [])
    (hw : |CentroidCalculator.totalWeight pts| < CentroidCalculator.eps) :
    (compute_center_of_gravity_details pts).used_fallback_average = true ∧
    (compute_center_of_gravity_details pts).centroid_longitude =
      (pts.map (fun p => p.1)).sum / pts.length ∧
    (compute_center_of_gravity_details pts).centroid_latitude =
      (pts.map (fun p => p.2.1)).sum / pts.length := by
  refine ⟨?_, ?_, ?_⟩
  · simp [compute_center_of_gravity_details, hne, hw, List.isEmpty_iff]
  · simp [compute_center_of_gravity_details,
      CentroidCalculator.centroid_eq_fallback pts hne hw]
  · simp [compute_center_of_gravity_details,
      CentroidCalculator.centroid_eq_fallback pts hne hw]

/-- Witness for C9 at a one-point zero-mass set. -/
theorem details_reports_fallback_flag_witness :
    (compute_center_of_gravity_details [((4:ℚ), (6:ℚ), (3:ℚ), (0:ℚ))]).used_fallback_average
      = true ∧
    (compute_center_of_gravity_details [((4:ℚ), (6:ℚ), (3:ℚ), (0:ℚ))]).centroid_longitude = 4 := by
  have h := details_reports_fallback_flag [((4:ℚ), (6:ℚ), (3:ℚ), (0:ℚ))] (by decide)
    (by norm_num [CentroidCalculator.totalWeight, CentroidCalculator.eps])
  refine ⟨h.1, ?_⟩
  rw [h.2.1]
  norm_num

/-- C3: for a non-empty point set and non-empty criteria selection, the
TOPSIS score is `d⁻ / (d⁺ + d⁻)`, always lies in `[0, 1]`, and is defined as
`0.0` when both ideal distances vanish. -/
theorem topsis_score_in_unit_interval (cells : List (List Cell)) (ws : List ℚ)
    (imps : List Impact) (k i : ℕ) (_hrows : cells ≠ []) (_hk : k ≠ 0) :
    Topsis.topsisScore cells ws imps k i =
      (if Topsis.dPlus cells ws imps k i + Topsis.dMinus cells ws imps k i = 0 then 0
       else Topsis.dMinus cells ws imps k i /
         (Topsis.dPlus cells ws imps k i + Topsis.dMinus cells ws imps k i)) ∧
    0 ≤ Topsis.topsisScore cells ws imps k i ∧
    Topsis.topsisScore cells ws imps k i ≤ 1 ∧
    (Topsis.dPlus cells ws imps k i = 0 → Topsis.dMinus cells ws imps k i = 0 →
      Topsis.topsisScore cells ws imps k i = 0) := by
  have ha : 0 ≤ Topsis.dPlus cells ws imps k i := Real.sqrt_nonneg _
  have hb : 0 ≤ Topsis.dMinus cells ws imps k i := Real.sqrt_nonneg _
  refine ⟨rfl, ?_, ?_, ?_⟩
  · unfold Topsis.topsisScore
    split
    · exact le_refl 0
    · exact div_nonneg hb (by linarith)
  · unfold Topsis.topsisScore
    split
    · exact zero_le_one
    · rename_i h
      have hpos : 0 < Topsis.dPlus cells ws imps k i + Topsis.dMinus cells ws imps k i :=
        lt_of_le_of_ne (by linarith) (Ne.symm h)
      exact (div_le_one hpos).mpr (by linarith)
  · intro h1 h2
    unfold Topsis.topsisScore
    rw [if_pos (by rw [h1, h2, add_zero])]

/-- Witness for C3: two points, one cost criterion with values 10 and 20. -/
theorem topsis_score_in_unit_interval_witness :
    ([[some (10:ℚ)], [some 20]] : List (List Cell)) ≠ [] ∧ (1:ℕ) ≠ 0 ∧
    0 ≤ Topsis.topsisScore [[some (10:ℚ)], [some 20]] [1] [Impact.cost] 1 0 ∧
    Topsis.topsisScore [[some (10:ℚ)], [some 20]] [1] [Impact.cost] 1 0 ≤ 1 :=
  ⟨by decide, by decide,
   (topsis_score_in_unit_interval _ _ _ 1 0 (by decide) (by decide)).2.1,
   (topsis_score_in_unit_interval _ _ _ 1 0 (by decide) (by decide)).2.2.1⟩

/-- A row that passes the canonical-shape check is literally four coerced cells. -/
lemma isCanonicalRow_shape (r : List Cell) (h : isCanonicalRow r = true) :
    ∃ a b c d : ℚ, r = [some a, some b, some c, some d] := by
  unfold isCanonicalRow at h
  split at h
  · rename_i a b c d
    exact ⟨a, b, c, d, rfl⟩
  · exact absurd h (by simp)

/-- Filling a kept selected row yields a canonical row. -/
lemma isCanonicalRow_fillRow (r : List Cell) (h : keepRow r = true) :
    isCanonicalRow (fillRow r) = true := by
  unfold keepRow at h
  obtain ⟨h0, h1⟩ := Bool.and_eq_true_iff.mp h
  obtain ⟨a, ha⟩ := Option.isSome_iff_exists.mp h0
  obtain ⟨b, hb⟩ := Option.isSome_iff_exists.mp h1
  simp only [fillRow, ha, hb]
  rfl

/-- Every successful output of the normalizer is canonical: canonical header
and only fully-coerced four-cell rows. -/
lemma ensure_output_canonical {x : Option RawTable} {R : RawTable}
    (h : ensure_points_dataframe x = some R) : R.isCanonical = true := by
  match x with
  | none =>
    simp only [ensure_points_dataframe] at h
    cases h
    rfl
  | some t0 =>
    simp only [ensure_points_dataframe] at h
    cases hq : resolveColumns t0 with
    | none => rw [hq] at h; cases h
    | some q =>
      rw [hq] at h
      cases h
      simp only [RawTable.isCanonical, Bool.and_eq_true, decide_eq_true_eq]
      refine ⟨by trivial, ?_⟩
      rw [List.all_eq_true]
      intro r hr
      obtain ⟨r0, hr0, hr0eq⟩ := List.mem_map.mp hr
      exact hr0eq ▸ isCanonicalRow_fillRow r0 (List.mem_filter.mp hr0).2

/-- On a table whose rows are all canonical, the select/coerce/drop/fill
pipeline is the identity on the rows. -/
lemma rows_roundtrip (rows : List (List Cell)) (h : ∀ r ∈ rows, isCanonicalRow r = true) :
    ((rows.map (projectRow [0, 1, 2, 3])).filter keepRow).map fillRow = rows := by
  induction rows with
  | nil => rfl
  | cons r t ih =>
    have ht := ih (fun s hs => h s (List.mem_cons_of_mem r hs))
    obtain ⟨a, b, c, d, rfl⟩ := isCanonicalRow_shape r (h r (List.mem_cons_self r t))
    simp only [List.map_cons]
    rw [show projectRow [0, 1, 2, 3] [some a, some b, some c, some d] =
      [some a, some b, some c, some d] from rfl]
    rw [List.filter_cons_of_pos (by rfl)]
    simp only [List.map_cons, ht]
    rfl

/-- The normalizer is the identity on canonical tables. -/
lemma ensure_canonical_fixed {t : RawTable} (h : t.isCanonical = true) :
    ensure_points_dataframe (some t) = some t := by
  obtain ⟨hh, hr⟩ := Bool.and_eq_true_iff.mp h
  have hh2 : t.header = canonicalHeader := by exact_mod_cast decide_eq_true_eq.mp hh
  obtain ⟨header, rows⟩ := t
  simp only at hh2
  subst hh2
  have hres : resolveColumns ⟨canonicalHeader, rows⟩ =
      some (⟨canonicalHeader, rows⟩, [0, 1, 2, 3]) := rfl
  simp only [ensure_points_dataframe, hres, Option.map_some']
  have hall : ∀ r ∈ rows, isCanonicalRow r = true := by
    intro r hrm
    exact List.all_eq_true.mp (by exact_mod_cast hr) r hrm
  rw [rows_roundtrip rows hall]

/-- C5: the normalizer drops exactly the rows whose longitude or latitude
fails numeric coercion, keeps the surviving rows contiguously in order, and
fills missing `transport_rate`/`mass` with `1.0` instead of dropping. -/
theorem ensure_drop_and_fill (T R : RawTable) (q : RawTable × List Nat)
    (hq : resolveColumns T = some q)
    (h : ensure_points_dataframe (some T) = some R) :
    R.header = canonicalHeader ∧
    R.rows = ((q.1.rows.map (projectRow q.2)).filter
        (fun r => (r.getD 0 none).isSome && (r.getD 1 none).isSome)).map
      (fun r => [r.getD 0 none, r.getD 1 none,
                 some ((r.getD 2 none).getD 1), some ((r.getD 3 none).getD 1)]) := by
  simp only [ensure_points_dataframe, hq, Option.map_some'] at h
  cases h
  exact ⟨rfl, rfl⟩

/-- Witness for C5 at a two-column table whose second row has an uncoercible
longitude cell: that row is dropped, the other is kept and filled. -/
theorem ensure_drop_and_fill_witness :
    (⟨canonicalHeader, [[some 1, some 2, some 1, some 1]]⟩ : RawTable).header =
      canonicalHeader ∧
    (⟨canonicalHeader, [[some 1, some 2, some 1, some 1]]⟩ : RawTable).rows =
      ((([[some (1:ℚ), some 2, some 1, some 1], [none, some 3, some 1, some 1]].map
          (projectRow [0, 1, 2, 3])).filter
            (fun r => (r.getD 0 none).isSome && (r.getD 1 none).isSome)).map
        (fun r => [r.getD 0 none, r.getD 1 none,
                   some ((r.getD 2 none).getD 1), some ((r.getD 3 none).getD 1)])) :=
  ensure_drop_and_fill
    ⟨["x".toList, "y".toList], [[some 1, some 2], [none, some 3]]⟩
    ⟨canonicalHeader, [[some 1, some 2, some 1, some 1]]⟩
    (⟨["x".toList, "y".toList, "transport_rate".toList, "mass".toList],
      [[some 1, some 2, some 1, some 1], [none, some 3, some 1, some 1]]⟩, [0, 1, 2, 3])
    (by decide) (by decide)

/-- C6: the normalizer is idempotent: feeding any successful output back in
returns the same table. -/
theorem ensure_idempotent (T : Option RawTable) (R : RawTable)
    (h : ensure_points_dataframe T = some R) :
    ensure_points_dataframe (some R) = some R :=
  ensure_canonical_fixed (ensure_output_canonical h)

/-- Witness for C6 at a raw two-column table with alias headers and a
dropped row. -/
theorem ensure_idempotent_witness :
    ensure_points_dataframe
        (some ⟨["X ".toList, "y".toList], [[some 1, some 2], [none, some 3]]⟩) =
      some ⟨canonicalHeader, [[some 1, some 2, some 1, some 1]]⟩ ∧
    ensure_points_dataframe (some ⟨canonicalHeader, [[some 1, some 2, some 1, some 1]]⟩) =
      some ⟨canonicalHeader, [[some 1, some 2, some 1, some 1]]⟩ :=
  ⟨by decide,
   ensure_idempotent
     (some ⟨["X ".toList, "y".toList], [[some 1, some 2], [none, some 3]]⟩)
     ⟨canonicalHeader, [[some 1, some 2, some 1, some 1]]⟩ (by decide)⟩

/-- C10: every PointSet-returning operation yields a table with exactly the
four canonical columns in order and no missing value in any cell. -/
theorem pointset_ops_canonical :
    (∀ x R, ensure_points_dataframe x = some R → R.isCanonical = true) ∧
    (∀ x lon lat tr m R, append_point x lon lat tr m = some R → R.isCanonical = true) ∧
    (∀ u R, read_points_from_uploaded_file u = some R → R.isCanonical = true) ∧
    (∀ p ms dtr dm R,
        synchronize_points_dataframe_with_marker_positions p ms dtr dm = some R →
        R.isCanonical = true) := by
  refine ⟨fun x R h => ensure_output_canonical h, ?_, ?_, ?_⟩
  · intro x lon lat tr m R h
    unfold append_point at h
    cases hdf : ensure_points_dataframe x with
    | none => rw [hdf] at h; cases h
    | some df =>
      rw [hdf, Option.map_some'] at h
      cases h
      have hc := ensure_output_canonical hdf
      simp only [RawTable.isCanonical, Bool.and_eq_true, decide_eq_true_eq] at hc ⊢
      refine ⟨hc.1, ?_⟩
      rw [List.all_append, hc.2]
      rfl
  · intro u R h
    cases u with
    | noFile => cases h; rfl
    | parseFailure => cases h; rfl
    | parsed t =>
      simp only [read_points_from_uploaded_file] at h
      exact ensure_output_canonical h
  · intro p ms dtr dm R h
    unfold synchronize_points_dataframe_with_marker_positions at h
    cases hdf : ensure_points_dataframe p with
    | none => rw [hdf] at h; cases h
    | some df =>
      rw [hdf] at h
      simp only [Option.some_bind] at h
      split at h
      · cases h; rfl
      · split at h
        · exact ensure_output_canonical h
        · exact ensure_output_canonical h

/-- Witness for C10: one concrete instance per operation. -/
theorem pointset_ops_canonical_witness :
    (⟨canonicalHeader, [[some 1, some 2, some 1, some 1]]⟩ : RawTable).isCanonical = true ∧
    (⟨canonicalHeader, [[some 1, some 2, some 3, some 4]]⟩ : RawTable).isCanonical = true ∧
    emptyPointsTable.isCanonical = true ∧
    (⟨canonicalHeader, []⟩ : RawTable).isCanonical = true :=
  ⟨pointset_ops_canonical.1
     (some ⟨["X ".toList, "y".toList], [[some 1, some 2], [none, some 3]]⟩)
     ⟨canonicalHeader, [[some 1, some 2, some 1, some 1]]⟩ (by decide),
   pointset_ops_canonical.2.1 none 1 2 3 4
     ⟨canonicalHeader, [[some 1, some 2, some 3, some 4]]⟩ (by decide),
   pointset_ops_canonical.2.2.1 .parseFailure emptyPointsTable (by decide),
   pointset_ops_canonical.2.2.2 (some emptyPointsTable) [] 1 1 ⟨canonicalHeader, []⟩
     (by decide)⟩

lemma distLe_trans : ∀ a b c : Pair, distLe a b = true → distLe b c = true →
    distLe a c = true := by
  intro a b c hab hbc
  simp only [distLe, decide_eq_true_eq] at hab hbc ⊢
  exact le_trans hab hbc

lemma distLe_total : ∀ a b : Pair, (distLe a b || distLe b a) = true := by
  intro a b
  simp only [distLe, Bool.or_eq_true, decide_eq_true_eq]
  exact le_total a.1 b.1

/-- Unfolding of the tie-breaking comparison used on enumerated pairs. -/
lemma enumLE_iff (a b : ℕ × Pair) :
    List.enumLE distLe a b = true ↔ (a.2.1 ≤ b.2.1 ∧ (b.2.1 ≤ a.2.1 → a.1 ≤ b.1)) := by
  unfold List.enumLE distLe
  by_cases h1 : a.2.1 ≤ b.2.1 <;> by_cases h2 : b.2.1 ≤ a.2.1 <;> simp [h1, h2]

lemma enumLE_trans : ∀ a b c : ℕ × Pair, List.enumLE distLe a b = true →
    List.enumLE distLe b c = true → List.enumLE distLe a c = true := by
  intro a b c hab hbc
  rw [enumLE_iff] at hab hbc ⊢
  refine ⟨le_trans hab.1 hbc.1, fun hca => ?_⟩
  have hba : b.2.1 ≤ a.2.1 := le_trans hbc.1 hca
  have hcb : c.2.1 ≤ b.2.1 := le_trans hca hab.1
  exact le_trans (hab.2 hba) (hbc.2 hcb)

lemma enumLE_total : ∀ a b : ℕ × Pair,
    (List.enumLE distLe a b || List.enumLE distLe b a) = true := by
  intro a b
  rw [Bool.or_eq_true, enumLE_iff, enumLE_iff]
  rcases le_total a.2.1 b.2.1 with h | h
  · by_cases h2 : b.2.1 ≤ a.2.1
    · rcases le_total a.1 b.1 with h3 | h3
      · exact Or.inl ⟨h, fun _ => h3⟩
      · exact Or.inr ⟨h2, fun _ => h3⟩
    · exact Or.inl ⟨h, fun hc => absurd hc h2⟩
  · by_cases h2 : a.2.1 ≤ b.2.1
    · rcases le_total a.1 b.1 with h3 | h3
      · exact Or.inl ⟨h2, fun _ => h3⟩
      · exact Or.inr ⟨h, fun _ => h3⟩
    · exact Or.inr ⟨h, fun hc => absurd hc h2⟩

/-- Membership characterization of the all-pairs list. -/
lemma mem_allPairs {epos mpos : List (ℚ × ℚ)} {p : Pair} (h : p ∈ allPairs epos mpos) :
    p.2.1 < epos.length ∧ p.2.2 < mpos.length ∧
    p.1 = distSq (epos.getD p.2.1 (0, 0)) (mpos.getD p.2.2 (0, 0)) := by
  simp only [allPairs, List.mem_flatMap, List.mem_map, List.mem_range] at h
  obtain ⟨ei, hei, mi, hmi, rfl⟩ := h
  exact ⟨hei, hmi, rfl⟩

/-- Converse membership: every index pair contributes its pair. -/
lemma allPairs_mem_of {epos mpos : List (ℚ × ℚ)} (ei mi : ℕ)
    (hei : ei < epos.length) (hmi : mi < mpos.length) :
    (distSq (epos.getD ei (0, 0)) (mpos.getD mi (0, 0)), ei, mi) ∈ allPairs epos mpos := by
  simp only [allPairs, List.mem_flatMap, List.mem_map, List.mem_range]
  exact ⟨ei, hei, mi, hmi, rfl⟩

/-- The pair list is constructed in strictly increasing index order
(previous-point index major, marker index minor). -/
lemma allPairs_pairwise_idx (epos mpos : List (ℚ × ℚ)) :
    List.Pairwise (fun p q => idxLt p q = true) (allPairs epos mpos) := by
  rw [allPairs, List.pairwise_flatMap]
  constructor
  · intro ei _
    rw [List.pairwise_map]
    refine List.Pairwise.imp ?_ (List.pairwise_lt_range _)
    intro mi mj h
    simp [idxLt, h]
  · refine List.Pairwise.imp ?_ (List.pairwise_lt_range _)
    intro e1 e2 h x hx y hy
    obtain ⟨mi, _, rfl⟩ := List.mem_map.mp hx
    obtain ⟨mj, _, rfl⟩ := List.mem_map.mp hy
    simp [idxLt, h]

/-- Sorting the pair list by distance with the stable merge sort produces a
list that is strictly sorted for the full lexicographic key
(distance, previous-point index, marker index). -/
lemma sortedPairs_pairwise_lexLt (epos mpos : List (ℚ × ℚ)) :
    List.Pairwise (fun p q => lexLt p q = true) ((allPairs epos mpos).mergeSort distLe) := by
  set l := allPairs epos mpos with hl
  rw [← @List.mergeSort_enum Pair distLe l, List.pairwise_map]
  have hperm : (l.enum.mergeSort (List.enumLE distLe)).Perm l.enum := List.mergeSort_perm _ _
  have hsorted : List.Pairwise (fun a b => List.enumLE distLe a b = true)
      (l.enum.mergeSort (List.enumLE distLe)) :=
    List.sorted_mergeSort enumLE_trans enumLE_total _
  have hnodup : (l.enum.mergeSort (List.enumLE distLe)).Pairwise (fun a b => a.1 ≠ b.1) := by
    have h2 : ((l.enum).map Prod.fst).Nodup := by
      rw [List.enum_map_fst]
      exact List.nodup_range _
    have h3 : ((l.enum.mergeSort (List.enumLE distLe)).map Prod.fst).Nodup :=
      ((hperm.map Prod.fst).nodup_iff).mpr h2
    exact List.pairwise_map.mp h3
  have hidx : ∀ x ∈ l.enum, ∀ y ∈ l.enum, x.1 < y.1 → idxLt x.2 y.2 = true := by
    intro x hx y hy hxy
    obtain ⟨hxlt, hxeq⟩ := List.getElem?_eq_some_iff.mp (List.mem_enum_iff_getElem?.mp hx)
    obtain ⟨hylt, hyeq⟩ := List.getElem?_eq_some_iff.mp (List.mem_enum_iff_getElem?.mp hy)
    have := List.pairwise_iff_getElem.mp (allPairs_pairwise_idx epos mpos) x.1 y.1 hxlt hylt hxy
    rw [hxeq, hyeq] at this
    exact this
  refine ((hsorted.and hnodup).imp_of_mem ?_)
  intro a b ha hb hab
  obtain ⟨h1, h2⟩ := hab
  rw [enumLE_iff] at h1
  by_cases hd : b.2.1 ≤ a.2.1
  · have heq : a.2.1 = b.2.1 := le_antisymm h1.1 hd
    have hij : a.1 < b.1 := lt_of_le_of_ne (h1.2 hd) h2
    have hA : a ∈ l.enum := (hperm.mem_iff).mp ha
    have hB : b ∈ l.enum := (hperm.mem_iff).mp hb
    have h3 := hidx a hA b hB hij
    simp [lexLt, heq, h3]
  · have h3 : a.2.1 < b.2.1 := lt_of_le_not_le h1.1 hd
    simp [lexLt, h3]

/-- C7: the reconciler's pair sort uses a strict, fully-ordered key — the
sorted pair list is strictly increasing for (distance, previous-point index,
marker index), so distance ties are broken deterministically by the original
indices and identical inputs always yield the identical sorted order. -/
theorem reconcile_sort_deterministic_tiebreak (epos mpos : List (ℚ × ℚ)) :
    List.Pairwise (fun p q => lexLt p q = true) ((allPairs epos mpos).mergeSort distLe) :=
  sortedPairs_pairwise_lexLt epos mpos

lemma lexLt_iff_key (p q : Pair) : lexLt p q = true ↔ pairKey p < pairKey q := by
  rw [pairKey, pairKey, Prod.Lex.lt_iff, Prod.Lex.lt_iff]
  simp [lexLt, idxLt, Bool.or_eq_true, Bool.and_eq_true, decide_eq_true_eq]

lemma pairKey_inj {p q : Pair} (h : pairKey p = pairKey q) : p = q := by
  obtain ⟨d1, e1, m1⟩ := p
  obtain ⟨d2, e2, m2⟩ := q
  simp only [pairKey, toLex_inj, Prod.mk.injEq] at h
  simp [h.1, h.2.1, h.2.2]

lemma lexLt_irrefl (p : Pair) : lexLt p p = false := by
  cases h : lexLt p p with
  | false => rfl
  | true => exact absurd ((lexLt_iff_key p p).mp h) (lt_irrefl _)

lemma lexLt_eq_false_iff (p q : Pair) : lexLt p q = false ↔ pairKey q ≤ pairKey p := by
  rw [Bool.eq_false_iff, ← not_lt]
  exact not_congr (lexLt_iff_key p q)

lemma lexLt_connex {p q : Pair} (h : p ≠ q) : lexLt p q = true ∨ lexLt q p = true := by
  rcases lt_or_gt_of_ne (fun hk => h (pairKey_inj hk)) with hk | hk
  · exact Or.inl ((lexLt_iff_key p q).mpr hk)
  · exact Or.inr ((lexLt_iff_key q p).mpr hk)

lemma foldl_pickMin_some : ∀ (m : List Pair) (a : Pair),
    ∃ r, m.foldl pickMin (some a) = some r := by
  intro m
  induction m with
  | nil => exact fun a => ⟨a, rfl⟩
  | cons x t ih =>
    intro a
    rw [List.foldl_cons]
    by_cases hxa : lexLt x a = true
    · obtain ⟨r, hr⟩ := ih x
      exact ⟨r, by rw [show pickMin (some a) x = some x by simp [pickMin, hxa]]; exact hr⟩
    · obtain ⟨r, hr⟩ := ih a
      exact ⟨r, by rw [show pickMin (some a) x = some a by simp [pickMin, hxa]]; exact hr⟩

/-- The fold computing the least pair: its result is drawn from the inputs
and no input is strictly below it. -/
lemma foldl_pickMin_spec : ∀ (m : List Pair) (acc : Option Pair) (r : Pair),
    m.foldl pickMin acc = some r →
    (acc = some r ∨ r ∈ m) ∧ (∀ q ∈ m, lexLt q r = false) ∧
    (∀ a, acc = some a → lexLt a r = false) := by
  intro m
  induction m with
  | nil =>
    intro acc r h
    refine ⟨Or.inl h, by simp, fun a ha => ?_⟩
    rw [ha] at h
    cases h
    exact lexLt_irrefl r
  | cons x t ih =>
    intro acc r h
    rw [List.foldl_cons] at h
    obtain ⟨hmem, hlb, hacc⟩ := ih (pickMin acc x) r h
    cases acc with
    | none =>
      have hxr : lexLt x r = false := hacc x rfl
      refine ⟨?_, ?_, ?_⟩
      · rcases hmem with h1 | h1
        · have h2 : x = r := by simpa [pickMin] using h1
          exact Or.inr (by rw [← h2]; exact List.mem_cons_self x t)
        · exact Or.inr (List.mem_cons_of_mem x h1)
      · intro q hq
        rcases List.mem_cons.mp hq with rfl | hq2
        · exact hxr
        · exact hlb q hq2
      · intro a ha
        cases ha
    | some a0 =>
      by_cases hxa : lexLt x a0 = true
      · have hxr : lexLt x r = false := hacc x (by simp [pickMin, hxa])
        have ha0r : lexLt a0 r = false := by
          rw [lexLt_eq_false_iff] at hxr ⊢
          exact le_trans hxr (le_of_lt ((lexLt_iff_key x a0).mp hxa))
        refine ⟨?_, ?_, ?_⟩
        · rcases hmem with h1 | h1
          · have h2 : x = r := by simpa [pickMin, hxa] using h1
            exact Or.inr (by rw [← h2]; exact List.mem_cons_self x t)
          · exact Or.inr (List.mem_cons_of_mem x h1)
        · intro q hq
          rcases List.mem_cons.mp hq with rfl | hq2
          · exact hxr
          · exact hlb q hq2
        · intro a ha
          cases ha
          exact ha0r
      · have ha0r : lexLt a0 r = false := hacc a0 (by simp [pickMin, hxa])
        have hxr : lexLt x r = false := by
          rw [lexLt_eq_false_iff] at ha0r ⊢
          exact le_trans ha0r (not_lt.mp fun hlt => hxa ((lexLt_iff_key x a0).mpr hlt))
        refine ⟨?_, ?_, ?_⟩
        · rcases hmem with h1 | h1
          · have h2 : a0 = r := by simpa [pickMin, hxa] using h1
            exact Or.inl (by rw [h2])
          · exact Or.inr (List.mem_cons_of_mem x h1)
        · intro q hq
          rcases List.mem_cons.mp hq with rfl | hq2
          · exact hxr
          · exact hlb q hq2
        · intro a ha
          cases ha
          exact ha0r

lemma minValid_mem {pool : List Pair} {mE mM : Finset ℕ} {p : Pair}
    (h : minValid pool mE mM = some p) : p ∈ pool.filter (validPair mE mM) := by
  obtain ⟨hmem, _, _⟩ := foldl_pickMin_spec _ none p h
  rcases hmem with h1 | h1
  · cases h1
  · exact h1

lemma minValid_eq_none {pool : List Pair} {mE mM : Finset ℕ}
    (h : ∀ p ∈ pool, validPair mE mM p = false) : minValid pool mE mM = none := by
  unfold minValid
  rw [List.filter_eq_nil_iff.mpr (fun a ha => by simp [h a ha])]
  rfl

/-- The least-valid-pair extraction returns the unique valid pair below all
other valid pairs. -/
lemma minValid_eq_of_min {pool : List Pair} {mE mM : Finset ℕ} {p : Pair}
    (hp : p ∈ pool.filter (validPair mE mM))
    (hmin : ∀ q ∈ pool.filter (validPair mE mM), q = p ∨ lexLt p q = true) :
    minValid pool mE mM = some p := by
  unfold minValid
  rcases hq : (pool.filter (validPair mE mM)).foldl pickMin none with _ | r
  · exfalso
    rcases hfl : pool.filter (validPair mE mM) with _ | ⟨a, t⟩
    · rw [hfl] at hp
      cases hp
    · rw [hfl, List.foldl_cons, show pickMin none a = some a from rfl] at hq
      obtain ⟨r, hr⟩ := foldl_pickMin_some t a
      rw [hr] at hq
      cases hq
  · obtain ⟨hmem, hlb, _⟩ := foldl_pickMin_spec _ none r hq
    have hrmem : r ∈ pool.filter (validPair mE mM) := by
      rcases hmem with h1 | h1
      · cases h1
      · exact h1
    rcases hmin r hrmem with rfl | hlt
    · rfl
    · exact absurd hlt (by simp [hlb p hp])

lemma minValid_cons_invalid {p : Pair} {t : List Pair} {mE mM : Finset ℕ}
    (h : validPair mE mM p = false) : minValid (p :: t) mE mM = minValid t mE mM := by
  unfold minValid
  rw [List.filter_cons_of_neg (by simp [h])]

lemma validPair_insert_false {mE mM : Finset ℕ} (a b : ℕ) {q : Pair}
    (h : validPair mE mM q = false) :
    validPair (insert a mE) (insert b mM) q = false := by
  simp only [validPair, Bool.and_eq_false_iff, decide_eq_false_iff_not, not_not] at h ⊢
  rcases h with h | h
  · exact Or.inl (Finset.mem_insert_of_mem h)
  · exact Or.inr (Finset.mem_insert_of_mem h)

lemma specGreedyMatch_succ (g : ℕ) (l : List Pair) (mE mM : Finset ℕ) (mp : List (ℕ × ℕ)) :
    specGreedyMatch (g + 1) l mE mM mp =
      match minValid l mE mM with
      | none => (mE, mM, mp)
      | some p => specGreedyMatch g l (insert p.2.1 mE) (insert p.2.2 mM)
          (mp ++ [(p.2.1, p.2.2)]) := rfl

lemma greedyScan_cons (nE nM : ℕ) (p : Pair) (rest : List Pair) (mE mM : Finset ℕ)
    (mp : List (ℕ × ℕ)) :
    greedyScan nE nM (p :: rest) mE mM mp =
      if p.2.1 ∈ mE ∨ p.2.2 ∈ mM then greedyScan nE nM rest mE mM mp
      else
        if (insert p.2.1 mE).card = nE ∨ (insert p.2.2 mM).card = nM then
          (insert p.2.1 mE, insert p.2.2 mM, mp ++ [(p.2.1, p.2.2)])
        else greedyScan nE nM rest (insert p.2.1 mE) (insert p.2.2 mM)
          (mp ++ [(p.2.1, p.2.2)]) := rfl

/-- A pair that is already unavailable never matters to the spec-side greedy
matching, whatever the fuel. -/
lemma spec_drop_invalid : ∀ (fuel : ℕ) (p : Pair) (t : List Pair) (mE mM : Finset ℕ)
    (mp : List (ℕ × ℕ)), validPair mE mM p = false →
    specGreedyMatch fuel (p :: t) mE mM mp = specGreedyMatch fuel t mE mM mp := by
  intro fuel
  induction fuel with
  | zero => intro p t mE mM mp _; rfl
  | succ f ih =>
    intro p t mE mM mp h
    rw [specGreedyMatch_succ, specGreedyMatch_succ, minValid_cons_invalid h]
    cases hmv : minValid t mE mM with
    | none => rfl
    | some q => exact ih p t _ _ _ (validPair_insert_false _ _ h)

/-- With no available pair left, the spec-side greedy matching halts. -/
lemma spec_no_valid : ∀ (fuel : ℕ) (l : List Pair) (mE mM : Finset ℕ) (mp : List (ℕ × ℕ)),
    (∀ p ∈ l, validPair mE mM p = false) →
    specGreedyMatch fuel l mE mM mp = (mE, mM, mp) := by
  intro fuel l mE mM mp h
  cases fuel with
  | zero => rfl
  | succ f =>
    rw [specGreedyMatch_succ, minValid_eq_none h]


/-- Each accepted pair consumes itself, so any fuel bounded below by the
number of available pairs is enough. -/
lemma spec_fuel_succ : ∀ (f : ℕ) (l : List Pair) (mE mM : Finset ℕ) (mp : List (ℕ × ℕ)),
    (l.filter (validPair mE mM)).length ≤ f →
    specGreedyMatch (f + 1) l mE mM mp = specGreedyMatch f l mE mM mp := by
  intro f
  induction f with
  | zero =>
    intro l mE mM mp h
    have h0 : l.filter (validPair mE mM) = [] := List.length_eq_zero.mp (Nat.le_zero.mp h)
    have hnone : minValid l mE mM = none := by
      unfold minValid
      rw [h0]
      rfl
    rw [specGreedyMatch_succ, hnone]
    rfl
  | succ f ih =>
    intro l mE mM mp h
    cases hmv : minValid l mE mM with
    | none =>
      rw [specGreedyMatch_succ, specGreedyMatch_succ, hmv]
    | some p =>
      rw [specGreedyMatch_succ, specGreedyMatch_succ, hmv]
      show specGreedyMatch (f + 1) l _ _ _ = specGreedyMatch f l _ _ _
      apply ih
      have hp := minValid_mem hmv
      have heq : l.filter (validPair (insert p.2.1 mE) (insert p.2.2 mM)) =
          (l.filter (validPair mE mM)).filter
            (validPair (insert p.2.1 mE) (insert p.2.2 mM)) := by
        rw [List.filter_filter]
        apply List.filter_congr
        intro a _
        cases hva : validPair (insert p.2.1 mE) (insert p.2.2 mM) a with
        | false => simp
        | true =>
          have hva2 : validPair mE mM a = true := by
            simp only [validPair, Bool.and_eq_true, decide_eq_true_eq] at hva ⊢
            exact ⟨fun hmem => hva.1 (Finset.mem_insert_of_mem hmem),
                   fun hmem => hva.2 (Finset.mem_insert_of_mem hmem)⟩
          simp [hva2]
      have hlt : ((l.filter (validPair mE mM)).filter
          (validPair (insert p.2.1 mE) (insert p.2.2 mM))).length <
          (l.filter (validPair mE mM)).length := by
        rw [List.length_filter_lt_length_iff_exists]
        exact ⟨p, hp, by simp [validPair]⟩
      rw [heq]
      omega

/-- Core refinement: on a strictly lex-sorted pair list the implementation's
single scan with early break computes exactly the spec's repeated extraction
of the globally closest available pair. -/
lemma greedyScan_eq_spec (nE nM : ℕ) :
    ∀ (l : List Pair) (mE mM : Finset ℕ) (mp : List (ℕ × ℕ)),
      List.Pairwise (fun p q => lexLt p q = true) l →
      (∀ p ∈ l, p.2.1 < nE ∧ p.2.2 < nM) →
      mE ⊆ Finset.range nE → mM ⊆ Finset.range nM →
      greedyScan nE nM l mE mM mp = specGreedyMatch l.length l mE mM mp := by
  intro l
  induction l with
  | nil => intro mE mM mp _ _ _ _; rfl
  | cons p t ih =>
    intro mE mM mp hsort hbound hE hM
    have hpbound := hbound p (List.mem_cons_self p t)
    have htbound : ∀ q ∈ t, q.2.1 < nE ∧ q.2.2 < nM :=
      fun q hq => hbound q (List.mem_cons_of_mem p hq)
    have htsort : List.Pairwise (fun a b => lexLt a b = true) t := hsort.of_cons
    have hhead : ∀ q ∈ t, lexLt p q = true := fun q hq => List.rel_of_pairwise_cons hsort hq
    rw [show (p :: t).length = t.length + 1 from rfl]
    by_cases hval : validPair mE mM p = true
    · have hine : p.2.1 ∉ mE := by
        simp only [validPair, Bool.and_eq_true, decide_eq_true_eq] at hval
        exact hval.1
      have hinm : p.2.2 ∉ mM := by
        simp only [validPair, Bool.and_eq_true, decide_eq_true_eq] at hval
        exact hval.2
      have hmv : minValid (p :: t) mE mM = some p := by
        apply minValid_eq_of_min
        · exact List.mem_filter.mpr ⟨List.mem_cons_self p t, hval⟩
        · intro q hq
          rcases List.mem_cons.mp (List.mem_filter.mp hq).1 with rfl | hq3
          · exact Or.inl rfl
          · exact Or.inr (hhead q hq3)
      rw [greedyScan_cons, if_neg (by rintro (hc | hc) <;> [exact hine hc; exact hinm hc])]
      rw [specGreedyMatch_succ, hmv]
      have hpinval : validPair (insert p.2.1 mE) (insert p.2.2 mM) p = false := by
        simp [validPair]
      show _ = specGreedyMatch t.length (p :: t) _ _ _
      rw [spec_drop_invalid _ _ _ _ _ _ hpinval]
      have hE2 : insert p.2.1 mE ⊆ Finset.range nE := by
        intro a ha
        rcases Finset.mem_insert.mp ha with rfl | ha2
        · exact Finset.mem_range.mpr hpbound.1
        · exact hE ha2
      have hM2 : insert p.2.2 mM ⊆ Finset.range nM := by
        intro a ha
        rcases Finset.mem_insert.mp ha with rfl | ha2
        · exact Finset.mem_range.mpr hpbound.2
        · exact hM ha2
      by_cases hbreak : (insert p.2.1 mE).card = nE ∨ (insert p.2.2 mM).card = nM
      · rw [if_pos hbreak]
        have hnoval : ∀ q ∈ t, validPair (insert p.2.1 mE) (insert p.2.2 mM) q = false := by
          intro q hq
          rcases hbreak with hb | hb
          · have hfull : insert p.2.1 mE = Finset.range nE :=
              Finset.eq_of_subset_of_card_le hE2 (le_of_eq (by rw [Finset.card_range, hb]))
            have hqin : q.2.1 ∈ insert p.2.1 mE := by
              rw [hfull]
              exact Finset.mem_range.mpr (htbound q hq).1
            simp [validPair, hqin]
          · have hfull : insert p.2.2 mM = Finset.range nM :=
              Finset.eq_of_subset_of_card_le hM2 (le_of_eq (by rw [Finset.card_range, hb]))
            have hqin : q.2.2 ∈ insert p.2.2 mM := by
              rw [hfull]
              exact Finset.mem_range.mpr (htbound q hq).2
            simp [validPair, hqin]
        rw [spec_no_valid _ _ _ _ _ hnoval]
      · rw [if_neg hbreak]
        exact ih _ _ _ htsort htbound hE2 hM2
    · have hvf : validPair mE mM p = false := Bool.eq_false_iff.mpr hval
      have hcond : p.2.1 ∈ mE ∨ p.2.2 ∈ mM := by
        simpa only [validPair, Bool.and_eq_false_iff, decide_eq_false_iff_not, not_not]
          using hvf
      rw [greedyScan_cons, if_pos hcond]
      rw [spec_drop_invalid _ _ _ _ _ _ hvf]
      rw [spec_fuel_succ _ _ _ _ _ (le_trans (List.length_filter_le _ _) (le_refl _))]
      exact ih _ _ _ htsort htbound hE hM

/-- Clear-on-empty-drawing policy: an empty marker list empties the set. -/
lemma sync_empty_markers_eq (Q : RawTable) (hQ : Q.isCanonical = true) (dtr dm : ℚ) :
    synchronize_points_dataframe_with_marker_positions (some Q) [] dtr dm =
      some emptyPointsTable := by
  unfold synchronize_points_dataframe_with_marker_positions
  rw [ensure_canonical_fixed hQ, Option.some_bind]
  rfl

/-- Closed form of the reconciler on a non-empty canonical point set and
non-empty marker list: the greedy matching is the spec-side repeated minimum
extraction, matched rows carry their attributes onto marker coordinates,
unmatched markers get defaults, unmatched previous rows are dropped. -/
lemma sync_nonempty_eq (P : RawTable) (hP : P.isCanonical = true)
    (hPne : P.rows ≠ []) (ms : List (ℚ × ℚ)) (hms : ms ≠ []) (dtr dm : ℚ) :
    synchronize_points_dataframe_with_marker_positions (some P) ms dtr dm =
      (let epos := P.rows.map fun r => (cellVal r 0, cellVal r 1)
       let sorted := (allPairs epos ms).mergeSort distLe
       let res := specGreedyMatch sorted.length sorted ∅ ∅ []
       some ⟨canonicalHeader,
         ((List.range P.rows.length).filterMap fun ei =>
           (res.2.2.lookup ei).map fun mi =>
             [some (ms.getD mi (0, 0)).1, some (ms.getD mi (0, 0)).2,
              some (cellVal (P.rows.getD ei []) 2), some (cellVal (P.rows.getD ei []) 3)]) ++
         ((List.range ms.length).filterMap fun mi =>
           if mi ∈ res.2.1 then none
           else some [some (ms.getD mi (0, 0)).1, some (ms.getD mi (0, 0)).2,
                      some dtr, some dm])⟩) := by
  · unfold synchronize_points_dataframe_with_marker_positions
    rw [ensure_canonical_fixed hP, Option.some_bind]
    rw [if_neg (by simpa [List.length_eq_zero] using hms)]
    rw [if_neg (by simpa [List.length_eq_zero] using hPne)]
    dsimp only
    have hscan : greedyScan (P.rows.map fun r => (cellVal r 0, cellVal r 1)).length ms.length
        ((allPairs (P.rows.map fun r => (cellVal r 0, cellVal r 1)) ms).mergeSort distLe)
        ∅ ∅ [] =
        specGreedyMatch
          ((allPairs (P.rows.map fun r => (cellVal r 0, cellVal r 1)) ms).mergeSort
            distLe).length
          ((allPairs (P.rows.map fun r => (cellVal r 0, cellVal r 1)) ms).mergeSort distLe)
          ∅ ∅ [] := by
      apply greedyScan_eq_spec
      · exact sortedPairs_pairwise_lexLt _ _
      · intro p hp
        have hp2 : p ∈ allPairs (P.rows.map fun r => (cellVal r 0, cellVal r 1)) ms :=
          (List.mergeSort_perm _ _).mem_iff.mp hp
        obtain ⟨h1, h2, _⟩ := mem_allPairs hp2
        exact ⟨h1, h2⟩
      · exact Finset.empty_subset _
      · exact Finset.empty_subset _
    rw [hscan]
    apply ensure_canonical_fixed
    simp only [RawTable.isCanonical, Bool.and_eq_true, decide_eq_true_eq]
    refine ⟨by trivial, ?_⟩
    rw [List.all_eq_true]
    intro r hr
    rcases List.mem_append.mp hr with hr1 | hr1
    · obtain ⟨ei, _, hf⟩ := List.mem_filterMap.mp hr1
      rcases hlk : List.lookup ei
          (specGreedyMatch
            ((allPairs (P.rows.map fun r => (cellVal r 0, cellVal r 1)) ms).mergeSort
              distLe).length
            ((allPairs (P.rows.map fun r => (cellVal r 0, cellVal r 1)) ms).mergeSort distLe)
            ∅ ∅ []).2.2 with _ | mi
      · rw [hlk] at hf
        cases hf
      · rw [hlk, Option.map_some'] at hf
        cases hf
        rfl
    · obtain ⟨mi, _, hf⟩ := List.mem_filterMap.mp hr1
      by_cases hmem : mi ∈ (specGreedyMatch
          ((allPairs (P.rows.map fun r => (cellVal r 0, cellVal r 1)) ms).mergeSort
            distLe).length
          ((allPairs (P.rows.map fun r => (cellVal r 0, cellVal r 1)) ms).mergeSort distLe)
          ∅ ∅ []).2.1
      · rw [if_pos hmem] at hf
        cases hf
      · rw [if_neg hmem] at hf
        cases hf
        rfl

/-- C2: with a non-empty previous point set and non-empty marker list the
reconciler performs exactly the spec's greedy matching — repeatedly consume
the closest still-available (previous point, marker) pair until one side is
exhausted — after which every matched previous point keeps its
`transport_rate` and `mass` at the matched marker's coordinates (in original
row order), every unmatched marker becomes a fresh default row, and every
unmatched previous point is dropped; and on any canonical previous point set
an empty marker list yields the empty point set. -/
theorem reconcile_greedy_characterization (P : RawTable) (hP : P.isCanonical = true)
    (hPne : P.rows ≠ []) (ms : List (ℚ × ℚ)) (hms : ms ≠ []) (dtr dm : ℚ) :
    (∀ Q : RawTable, Q.isCanonical = true →
        synchronize_points_dataframe_with_marker_positions (some Q) [] dtr dm =
          some emptyPointsTable) ∧
    synchronize_points_dataframe_with_marker_positions (some P) ms dtr dm =
      (let epos := P.rows.map fun r => (cellVal r 0, cellVal r 1)
       let sorted := (allPairs epos ms).mergeSort distLe
       let res := specGreedyMatch sorted.length sorted ∅ ∅ []
       some ⟨canonicalHeader,
         ((List.range P.rows.length).filterMap fun ei =>
           (res.2.2.lookup ei).map fun mi =>
             [some (ms.getD mi (0, 0)).1, some (ms.getD mi (0, 0)).2,
              some (cellVal (P.rows.getD ei []) 2), some (cellVal (P.rows.getD ei []) 3)]) ++
         ((List.range ms.length).filterMap fun mi =>
           if mi ∈ res.2.1 then none
           else some [some (ms.getD mi (0, 0)).1, some (ms.getD mi (0, 0)).2,
                      some dtr, some dm])⟩) :=
  ⟨fun Q hQ => sync_empty_markers_eq Q hQ dtr dm,
   sync_nonempty_eq P hP hPne ms hms dtr dm⟩

/-- Witness for C2: the clear-on-empty branch applied to a concrete
one-point canonical table, via the theorem instantiated at concrete inputs. -/
theorem reconcile_greedy_characterization_witness :
    synchronize_points_dataframe_with_marker_positions
        (some ⟨canonicalHeader, [[some 0, some 0, some 7, some 9]]⟩) [] 1 2 =
      some emptyPointsTable :=
  (reconcile_greedy_characterization ⟨canonicalHeader, [[some 0, some 0, some 7, some 9]]⟩
    (by decide) (by decide) [((3:ℚ), (4:ℚ))] (by decide) 1 2).1
    ⟨canonicalHeader, [[some 0, some 0, some 7, some 9]]⟩ (by decide)

lemma distSq_self (a : ℚ × ℚ) : distSq a a = 0 := by
  unfold distSq
  ring

lemma distSq_nonneg (a b : ℚ × ℚ) : 0 ≤ distSq a b := by
  unfold distSq
  positivity

lemma length_allPairs (epos mpos : List (ℚ × ℚ)) :
    (allPairs epos mpos).length = epos.length * mpos.length := by
  rw [allPairs, List.length_flatMap]
  have h1 : List.map (List.length ∘ fun ei =>
      (List.range mpos.length).map fun mi =>
        (distSq (epos.getD ei (0, 0)) (mpos.getD mi (0, 0)), ei, mi)) (List.range epos.length) =
      List.map (Function.const ℕ mpos.length) (List.range epos.length) := by
    apply List.map_congr_left
    intro a _
    simp [Function.comp]
  rw [h1, List.map_const, List.sum_replicate, List.length_range, smul_eq_mul]

lemma filterMap_eq_map_of_some {α β : Type _} (l : List α) (f : α → Option β) (g : α → β)
    (h : ∀ a ∈ l, f a = some (g a)) : l.filterMap f = l.map g := by
  induction l with
  | nil => rfl
  | cons x t ih =>
    rw [List.filterMap_cons_some (h x (List.mem_cons_self x t)), List.map_cons,
      ih (fun a ha => h a (List.mem_cons_of_mem x ha))]

lemma map_range_getD {α : Type _} (l : List α) (d : α) :
    (List.range l.length).map (fun i => l.getD i d) = l := by
  induction l with
  | nil => rfl
  | cons x t ih =>
    rw [show (x :: t).length = t.length + 1 from rfl, List.range_succ_eq_map]
    simp only [List.map_cons, List.map_map]
    have h1 : (List.range t.length).map ((fun i => (x :: t).getD i d) ∘ Nat.succ) =
        (List.range t.length).map (fun i => t.getD i d) := by
      apply List.map_congr_left
      intro a _
      rfl
    rw [h1, ih]
    rfl

lemma lookup_shifted_id : ∀ (n s ei : ℕ), s ≤ ei → ei < s + n →
    (((List.range n).map fun i => (s + i, s + i)).lookup ei) = some ei := by
  intro n
  induction n with
  | zero =>
    intro s ei h1 h2
    omega
  | succ n ih =>
    intro s ei h1 h2
    rw [List.range_succ_eq_map]
    simp only [List.map_cons, List.map_map]
    have hmapeq : (List.range n).map ((fun i => (s + i, s + i)) ∘ Nat.succ) =
        (List.range n).map (fun i => ((s + 1) + i, (s + 1) + i)) := by
      apply List.map_congr_left
      intro a _
      have h3 : s + (a + 1) = (s + 1) + a := by omega
      simp [Function.comp, h3]
    rw [hmapeq]
    by_cases he : ei = s
    · subst he
      simp [List.lookup]
    · have hbeq : (ei == s + 0) = false := by
        simp only [Nat.add_zero]
        exact beq_eq_false_iff_ne.mpr he
      rw [List.lookup, hbeq]
      exact ih (s + 1) ei (by omega) (by omega)

lemma lookup_range_id {n ei : ℕ} (h : ei < n) :
    (((List.range n).map fun i => (i, i)).lookup ei) = some ei := by
  have h1 := lookup_shifted_id n 0 ei (by omega) (by omega)
  simpa using h1

/-- Matching a canonical point set against its own positions: the spec-side
greedy matching consumes the zero-distance diagonal pairs in index order and
produces the identity matching. -/
lemma spec_identity (epos : List (ℚ × ℚ)) :
    ∀ (d k f : ℕ), k + d = epos.length → d ≤ f →
      specGreedyMatch f ((allPairs epos epos).mergeSort distLe)
        (Finset.range k) (Finset.range k) ((List.range k).map fun i => (i, i)) =
      (Finset.range epos.length, Finset.range epos.length,
       (List.range epos.length).map fun i => (i, i)) := by
  intro d
  induction d with
  | zero =>
    intro k f hk _
    have hkn : k = epos.length := by omega
    subst hkn
    apply spec_no_valid
    intro p hp
    have hb := mem_allPairs ((List.mergeSort_perm _ _).mem_iff.mp hp)
    have hin : p.2.1 ∈ Finset.range epos.length := Finset.mem_range.mpr hb.1
    simp [validPair, hin]
  | succ d ih =>
    intro k f hk hf
    obtain ⟨f2, rfl⟩ : ∃ f2, f = f2 + 1 := ⟨f - 1, by omega⟩
    have hkn : k < epos.length := by omega
    have hmv : minValid ((allPairs epos epos).mergeSort distLe)
        (Finset.range k) (Finset.range k) =
        some (distSq (epos.getD k (0, 0)) (epos.getD k (0, 0)), k, k) := by
      apply minValid_eq_of_min
      · rw [List.mem_filter]
        refine ⟨(List.mergeSort_perm _ _).mem_iff.mpr (allPairs_mem_of k k hkn hkn), ?_⟩
        simp [validPair, Finset.mem_range]
      · intro q hq
        obtain ⟨hqmem, hqval⟩ := List.mem_filter.mp hq
        obtain ⟨hb1, hb2, hd0⟩ := mem_allPairs ((List.mergeSort_perm _ _).mem_iff.mp hqmem)
        simp only [validPair, Bool.and_eq_true, decide_eq_true_eq, Finset.mem_range] at hqval
        have hge1 : k ≤ q.2.1 := by omega
        have hge2 : k ≤ q.2.2 := by omega
        by_cases hqp : q = (distSq (epos.getD k (0, 0)) (epos.getD k (0, 0)), k, k)
        · exact Or.inl hqp
        · right
          have hq0 : 0 ≤ q.1 := by
            rw [hd0]
            exact distSq_nonneg _ _
          rcases eq_or_lt_of_le hq0 with heq0 | hlt0
          · have hne : ¬(q.2.1 = k ∧ q.2.2 = k) := by
              rintro ⟨h1, h2⟩
              refine hqp (Prod.ext_iff.mpr ⟨?_, Prod.ext_iff.mpr ⟨h1, h2⟩⟩)
              rw [distSq_self]
              exact heq0.symm
            simp [lexLt, idxLt, distSq_self, ← heq0]
            omega
          · simp [lexLt, distSq_self, hlt0]
    rw [specGreedyMatch_succ, hmv]
    show specGreedyMatch f2 _ (insert k (Finset.range k)) (insert k (Finset.range k))
      (((List.range k).map fun i => (i, i)) ++ [(k, k)]) = _
    rw [← Finset.range_succ,
      show ((List.range k).map fun i => (i, i)) ++ [(k, k)] =
        (List.range (k + 1)).map (fun i => (i, i)) from by
          rw [List.range_succ, List.map_append]
          rfl]
    exact ih (k + 1) f2 (by omega) (by omega)

/-- C8: reconciling a canonical point set against exactly its own marker
positions returns it unchanged. -/
theorem reconcile_self_positions_identity (P : RawTable) (hP : P.isCanonical = true)
    (dtr dm : ℚ) :
    synchronize_points_dataframe_with_marker_positions (some P)
      (P.rows.map fun r => (cellVal r 0, cellVal r 1)) dtr dm = some P := by
  obtain ⟨hHdr, hAll⟩ := Bool.and_eq_true_iff.mp hP
  have hHdr2 : P.header = canonicalHeader := by exact_mod_cast decide_eq_true_eq.mp hHdr
  have hAll2 : ∀ r ∈ P.rows, isCanonicalRow r = true :=
    fun r hr => List.all_eq_true.mp (by exact_mod_cast hAll) r hr
  obtain ⟨ph, pr⟩ := P
  simp only at hHdr2 hAll2 ⊢
  subst hHdr2
  by_cases hpr0 : pr = []
  · subst hpr0
    unfold synchronize_points_dataframe_with_marker_positions
    rw [ensure_canonical_fixed hP, Option.some_bind]
    rfl
  · have hprne : pr ≠ [] := hpr0
    have hms : (pr.map fun r => (cellVal r 0, cellVal r 1)) ≠ [] := by
      simpa [List.map_eq_nil_iff] using hprne
    rw [sync_nonempty_eq ⟨canonicalHeader, pr⟩ hP hprne _ hms dtr dm]
    dsimp only
    have hn1 : 1 ≤ (pr.map fun r => (cellVal r 0, cellVal r 1)).length := by
      rw [List.length_map]
      exact Nat.pos_of_ne_zero (fun h0 => hprne (List.length_eq_zero.mp h0))
    have hfuel : (pr.map fun r => (cellVal r 0, cellVal r 1)).length ≤
        ((allPairs (pr.map fun r => (cellVal r 0, cellVal r 1))
          (pr.map fun r => (cellVal r 0, cellVal r 1))).mergeSort distLe).length := by
      rw [List.length_mergeSort, length_allPairs]
      nlinarith
    have hspec := spec_identity (pr.map fun r => (cellVal r 0, cellVal r 1))
      (pr.map fun r => (cellVal r 0, cellVal r 1)).length 0
      ((allPairs (pr.map fun r => (cellVal r 0, cellVal r 1))
        (pr.map fun r => (cellVal r 0, cellVal r 1))).mergeSort distLe).length
      (by omega) hfuel
    simp only [Finset.range_zero, List.range_zero, List.map_nil, List.length_map] at hspec
    rw [show ((pr.map fun r => (cellVal r 0, cellVal r 1)).length) = pr.length from
      List.length_map _ _] 
    rw [hspec]
    have hB : ((List.range pr.length).filterMap fun mi =>
        if mi ∈ Finset.range pr.length then none
        else some [some ((pr.map fun r => (cellVal r 0, cellVal r 1)).getD mi (0, 0)).1,
                   some ((pr.map fun r => (cellVal r 0, cellVal r 1)).getD mi (0, 0)).2,
                   some dtr, some dm]) = [] := by
      rw [List.filterMap_eq_nil_iff]
      intro mi hmi
      rw [if_pos (Finset.mem_range.mpr (List.mem_range.mp hmi))]
    have hA : ((List.range pr.length).filterMap fun ei =>
        ((((List.range pr.length).map fun i => (i, i)).lookup ei).map fun mi =>
          [some ((pr.map fun r => (cellVal r 0, cellVal r 1)).getD mi (0, 0)).1,
           some ((pr.map fun r => (cellVal r 0, cellVal r 1)).getD mi (0, 0)).2,
           some (cellVal (pr.getD ei []) 2), some (cellVal (pr.getD ei []) 3)])) = pr := by
      rw [filterMap_eq_map_of_some _ _
        (fun ei => [some ((pr.map fun r => (cellVal r 0, cellVal r 1)).getD ei (0, 0)).1,
                    some ((pr.map fun r => (cellVal r 0, cellVal r 1)).getD ei (0, 0)).2,
                    some (cellVal (pr.getD ei []) 2), some (cellVal (pr.getD ei []) 3)])
        (fun ei hei => by rw [lookup_range_id (List.mem_range.mp hei), Option.map_some'])]
      rw [List.map_congr_left (g := fun ei => pr.getD ei []) ?_, map_range_getD]
      intro ei hei
      have hei2 : ei < pr.length := List.mem_range.mp hei
      have hrowmem : pr.getD ei [] ∈ pr := by
        rw [List.getD_eq_getElem pr [] hei2]
        exact List.getElem_mem hei2
      obtain ⟨a, b, c, d, hshape⟩ := isCanonicalRow_shape _ (hAll2 _ hrowmem)
      have hget : (pr.map fun r => (cellVal r 0, cellVal r 1)).getD ei (0, 0) =
          (cellVal (pr.getD ei []) 0, cellVal (pr.getD ei []) 1) := by
        rw [List.getD_eq_getElem _ _ (by simpa using hei2), List.getElem_map,
          List.getD_eq_getElem pr [] hei2]
      simp only [hget, hshape]
      rfl
    rw [hA, hB, List.append_nil]

/-- Witness for C8 at a concrete two-point canonical table. -/
theorem reconcile_self_positions_identity_witness :
    synchronize_points_dataframe_with_marker_positions
        (some ⟨canonicalHeader,
          [[some 0, some 0, some 7, some 9], [some 3, some 4, some 2, some 5]]⟩)
        ((⟨canonicalHeader,
          [[some 0, some 0, some 7, some 9], [some 3, some 4, some 2, some 5]]⟩ :
            RawTable).rows.map fun r => (cellVal r 0, cellVal r 1)) 1 2 =
      some ⟨canonicalHeader,
        [[some 0, some 0, some 7, some 9], [some 3, some 4, some 2, some 5]]⟩ :=
  reconcile_self_positions_identity
    ⟨canonicalHeader, [[some 0, some 0, some 7, some 9], [some 3, some 4, some 2, some 5]]⟩
    (by decide) 1 2
